import Mathlib

/-!
Verification development for the `pxsort` pixel-sorting engine.

The definitions below are a shallow embedding of the Rust sources:
  * `src/cli.rs`    — `WalkPath`, its clap `ValueEnum` parsing;
  * `src/extractor.rs` — the per-pixel score functions;
  * `src/sort.rs`   — `rgb8_pixel_sort`, the core sort pass.

Machine `u8`/`u32`/`u64`/`usize` values are modelled as `Nat`, with
wrap-around made explicit (`% 256`) exactly where the source uses the
`wrapping_*` operations.  The `f32` coefficient pre-scaling of
`update_pixel` is outside the embedded fragment: the score functions that
consume it (`brightness`, `saturation`) are stated on the already-adjusted
pixel, which is how the corresponding spec sentences quantify them.  The
`hue` function is `f32` end to end; it is modelled over `ℚ`, which agrees
with `f32` at the concrete inputs evaluated below (the values involved are
far from any integer boundary relative to `f32` rounding error).

Randomness (`thread_rng` for `SliceRandom::choose` and
`SliceRandom::shuffle`) is modelled by oracle parameters:
  * `choice : Nat → List Nat → Nat` — the element `choose` picks from the
    interval list on a given outer line (hypothesis: a member of the list);
  * `shuffler : List Pixel → List Pixel` — the permutation `shuffle`
    applies to a block (hypothesis: a permutation of its input);
  * `progAt : Nat → Nat` — the value of the rayon `for_each_with`
    accumulator `prog_amount` when a given outer line is processed (its
    evolution across rayon splits is nondeterministic, so it is left
    entirely abstract).

Parallel structure of `rgb8_pixel_sort`: all reads happen in the parallel
phase (workers only call `image.get_pixel`), the single collector thread
first drains the channel (`rx.iter().collect_vec()`) and only then writes,
and each outer line writes only to its own row/column, so the pass is
modelled as: compute every line's concatenated blocks from the original
image, then fold the per-line write-backs.
-/

namespace PxSort

/-- An RGB8 pixel: three 8-bit channels, modelled as naturals (< 256 in
well-formed images). -/
structure Pixel where
  r : Nat
  g : Nat
  b : Nat
deriving DecidableEq

/-- Placeholder pixel used as the default of out-of-range reads in the
model; clamping keeps every actual access in bounds. -/
def defaultPixel : Pixel := ⟨0, 0, 0⟩

/-- Traversal direction, from `src/cli.rs` (`enum WalkPath`): only
`Horizontal` and `Vertical` variants exist in the source. -/
inductive WalkPath where
  | Horizontal
  | Vertical
deriving DecidableEq

/-- Parsing of the `--direction` value, from the clap `ValueEnum` derive on
`WalkPath` in `src/cli.rs`: the accepted value strings are the kebab-cased
variant names, i.e. exactly "horizontal" and "vertical". -/
def parseWalkPath (s : String) : Option WalkPath :=
  if s = "horizontal" then some WalkPath.Horizontal
  else if s = "vertical" then some WalkPath.Vertical
  else none

/-- An RGB8 image (`image::RgbImage`): width, height, and the row-major
pixel buffer. -/
structure Image where
  width : Nat
  height : Nat
  data : List Pixel
deriving DecidableEq

/-- A well-formed image has exactly `width * height` pixels. -/
def Image.wf (img : Image) : Prop := img.data.length = img.width * img.height

/-- `image.get_pixel(x, y)`: row-major read. -/
def getPixel (img : Image) (x y : Nat) : Pixel :=
  img.data.getD (y * img.width + x) defaultPixel

/-- `image.put_pixel(x, y, p)`: row-major write. -/
def putPixel (img : Image) (x y : Nat) (p : Pixel) : Image :=
  { img with data := img.data.set (y * img.width + x) p }

/-- The fields of `SortOptions` (`src/sort.rs`) that `rgb8_pixel_sort`
reads.  The score-function selector `by` together with the `f32`
`coefficients` is modelled as the dispatched key function (`sorter`
parameter below, the result of `into_rgb_sorter` closed over the options);
`splice`, `edge_threshold`, `image_threshold`, `image_mask`, `channel` and
`animate` are never read by `rgb8_pixel_sort` and are omitted. -/
structure SortOptions where
  interval : Nat
  reverse : Bool
  discretize : Nat
  progressiveAmount : Option Nat
  direction : WalkPath
  shuffle : Bool

/-- `(1..=options.interval).collect::<Vec<_>>()`. -/
def intervalList (k : Nat) : List Nat := List.range' 1 k 1

/-- The step size chosen for one outer line:
`(interval.choose(rng).unwrap() + prog_amount).min(*interval.last().unwrap())`. -/
def stepFor (opts : SortOptions) (choice : Nat → List Nat → Nat)
    (progAt : Nat → Nat) (outer : Nat) : Nat :=
  min (choice outer (intervalList opts.interval) + progAt outer)
    ((intervalList opts.interval).getLastD 0)

/-- `(0..inner_limit).step_by(step)`: the multiples of `step` below
`limit` (for `step ≥ 1`; Rust's `step_by` panics on step 0, which the
engine never produces). -/
def stepIndices (limit step : Nat) : List Nat :=
  List.range' 0 ((limit + step - 1) / step) step

/-- The index clamp `i.min(inner_limit - 1)` used by both the window
gather and the write-back. -/
def clampIdx (i limit : Nat) : Nat := min i (limit - 1)

/-- One gathered window
`(inner..inner + discretize).map(|i| image.get_pixel(clamped i, outer))`,
with the coordinate order matching the traversal direction. -/
def gatherBlock (dir : WalkPath) (img : Image) (innerL outer inner d : Nat) :
    List Pixel :=
  (List.range' inner d 1).map fun i =>
    match dir with
    | WalkPath.Horizontal => getPixel img (clampIdx i innerL) outer
    | WalkPath.Vertical => getPixel img outer (clampIdx i innerL)

/-- `block.par_sort_unstable_by_key(|pixel| sorter(pixel, &options))`,
modelled by a deterministic comparison sort on the same key; every
property stated below is independent of the order of key ties. -/
def sortByKey (key : Pixel → Nat) (l : List Pixel) : List Pixel :=
  List.insertionSort (fun a b => key a ≤ key b) l

/-- The per-block transformation of `rgb8_pixel_sort`: first the
`if options.shuffle` block (in-place shuffle), then the separate
`if options.reverse { reverse; sort; reverse } else { sort }` — note the
second `if` runs regardless of whether the block was shuffled. -/
def transformBlock (opts : SortOptions) (sorter : Pixel → Nat)
    (shuffler : List Pixel → List Pixel) (block : List Pixel) : List Pixel :=
  let b := if opts.shuffle then shuffler block else block
  if opts.reverse then (sortByKey sorter b.reverse).reverse
  else sortByKey sorter b

/-- One outer line's worth of work in the parallel phase: gather the
windows at the stepped indices, transform each block, and concatenate
(`sorted_blocks.concat()`). -/
def lineConcat (opts : SortOptions) (sorter : Pixel → Nat)
    (choice : Nat → List Nat → Nat) (progAt : Nat → Nat)
    (shuffler : List Pixel → List Pixel) (img : Image)
    (innerL outer : Nat) : List Pixel :=
  ((stepIndices innerL (stepFor opts choice progAt outer)).map fun inner =>
    transformBlock opts sorter shuffler
      (gatherBlock opts.direction img innerL outer inner opts.discretize)).flatten

/-- The collector's write loop body over an explicit list of
(position, pixel) pairs:
`for (x, pixel) in sorted { image.put_pixel(clamped x, y, pixel) }`. -/
def writePairs (dir : WalkPath) (innerL outer : Nat) (img : Image)
    (pairs : List (Nat × Pixel)) : Image :=
  pairs.foldl (fun im xp =>
    match dir with
    | WalkPath.Horizontal => putPixel im (clampIdx xp.1 innerL) outer xp.2
    | WalkPath.Vertical => putPixel im outer (clampIdx xp.1 innerL) xp.2) img

/-- The collector's write-back of one line: enumerate the concatenated
pixels and write each at its clamped position. -/
def writeConcat (dir : WalkPath) (innerL outer : Nat) (img : Image)
    (sorted : List Pixel) : Image :=
  writePairs dir innerL outer img sorted.enum

/-- `outer_limit` from the direction match in `rgb8_pixel_sort`. -/
def outerLimit (dir : WalkPath) (img : Image) : Nat :=
  match dir with
  | WalkPath.Horizontal => img.height
  | WalkPath.Vertical => img.width

/-- `inner_limit` from the direction match in `rgb8_pixel_sort`. -/
def innerLimit (dir : WalkPath) (img : Image) : Nat :=
  match dir with
  | WalkPath.Horizontal => img.width
  | WalkPath.Vertical => img.height

/-- One full sort pass (`rgb8_pixel_sort`): every line's concatenated
blocks are computed from the original image (all channel sends precede the
collector's first write and lines are disjoint), then written back. -/
def sortPass (opts : SortOptions) (sorter : Pixel → Nat)
    (choice : Nat → List Nat → Nat) (progAt : Nat → Nat)
    (shuffler : List Pixel → List Pixel) (img : Image) : Image :=
  ((List.range (outerLimit opts.direction img)).map fun o =>
    (o, lineConcat opts sorter choice progAt shuffler img
      (innerLimit opts.direction img) o)).foldl
    (fun im op =>
      writeConcat opts.direction (innerLimit opts.direction img) op.1 im op.2)
    img

/-! Score functions, from `src/extractor.rs`.  `brightness`, `chroma` and
`saturation` are stated on the coefficient-adjusted pixel (the output of
`update_pixel`), whose channels are `u8` values. -/

/-- The minimum channel, first component of `pixel.iter().minmax()`. -/
def minC (p : Pixel) : Nat := min p.r (min p.g p.b)

/-- The maximum channel, second component of `pixel.iter().minmax()`. -/
def maxC (p : Pixel) : Nat := max p.r (max p.g p.b)

/-- `u8::wrapping_add`. -/
def wrappingAdd (a b : Nat) : Nat := (a + b) % 256

/-- `u8::wrapping_sub` (for arguments < 256). -/
def wrappingSub (a b : Nat) : Nat := (a + 256 - b) % 256

/-- `brightness`: `max.wrapping_add(min).wrapping_div(2)` (unsigned
`wrapping_div` is plain division). -/
def brightness (p : Pixel) : Nat := wrappingAdd (maxC p) (minC p) / 2

/-- `chroma`: `max.wrapping_sub(min)`. -/
def chroma (p : Pixel) : Nat := wrappingSub (maxC p) (minC p)

/-- `saturation`: `if max != 0 { max.wrapping_sub(min) / max } else { 0 }`. -/
def saturation (p : Pixel) : Nat :=
  if maxC p ≠ 0 then wrappingSub (maxC p) (minC p) / maxC p else 0

/-- Rust's saturating `f32 as u8` cast: negative values to 0, values above
255 to 255, otherwise truncation toward zero. -/
def f32toU8 (q : ℚ) : Nat := if q < 0 then 0 else min 255 (Int.toNat ⌊q⌋)

/-- `hue` from `src/extractor.rs`, modelled over `ℚ`.  Two features of the
source are reproduced exactly as written:
  * the `match max { r if r == max => … }` arms — the first guard binds
    `max` itself to `r`, so `r == max` always holds and the red arm is
    always taken, whatever channel is actually maximal;
  * `diff` is `(max - min) as f32`, the unnormalised integer channel
    difference, while `red/green/blue` have been divided by 255. -/
def hue (p : Pixel) (cr _cg _cb : ℚ) : Nat :=
  let green : ℚ := (p.g : ℚ) / 255
  let blue : ℚ := (p.b : ℚ) / 255
  if maxC p = minC p then 0
  else
    let diff : ℚ := ((maxC p - minC p : Nat) : ℚ)
    let h0 : ℚ := cr + (green - blue) / diff
    let h1 : ℚ := h0 * 60
    f32toU8 (if h1 < 0 then h1 + 360 else h1)

/-- The standard HSV hue in degrees `[0, 360)` truncated to 8 bits, stated
from the spec's words ("standard HSV hue calculation in degrees [0,360),
truncated to 8-bit, values ≥ 256° alias; grayscale returns 0"): sector by
the maximal channel with offsets 0°/120°/240° and the normalised
chrominance term (normalisation cancels between numerator and
denominator, so integer channel values can be used directly). -/
def hueSpec (p : Pixel) : Nat :=
  if maxC p = minC p then 0
  else
    let d : ℚ := ((maxC p - minC p : Nat) : ℚ)
    let h : ℚ :=
      if p.r = maxC p then
        let x : ℚ := ((p.g : ℚ) - (p.b : ℚ)) / d * 60
        if x < 0 then x + 360 else x
      else if p.g = maxC p then 120 + ((p.b : ℚ) - (p.r : ℚ)) / d * 60
      else 240 + ((p.r : ℚ) - (p.g : ℚ)) / d * 60
    Int.toNat ⌊h⌋ % 256

/-! General list helper lemmas. -/

/-- Writing back the element already stored at a position leaves the list
unchanged (and a write past the end is a no-op). -/
theorem set_getD_self {α : Type*} :
    ∀ (l : List α) (i : Nat) (d : α), l.set i (l.getD i d) = l
  | [], _, _ => rfl
  | _ :: _, 0, _ => rfl
  | a :: tl, i + 1, d => congrArg (a :: ·) (set_getD_self tl i d)

/-- A fold whose every step fixes the accumulator returns it unchanged. -/
theorem foldl_fixed {α β : Type*} {f : β → α → β} {b : β} :
    ∀ {l : List α}, (∀ a ∈ l, f b a = b) → l.foldl f b = b
  | [], _ => rfl
  | a :: tl, h => by
    rw [List.foldl_cons, h a (List.mem_cons_self a tl)]
    exact foldl_fixed fun x hx => h x (List.mem_cons_of_mem a hx)

/-- `foldl_fixed` over an enumerated list, phrased through positions. -/
theorem foldl_enumFrom_fixed {α β : Type*} (f : β → Nat × α → β) (d : α) :
    ∀ (l : List α) (k : Nat) (b : β),
      (∀ j, j < l.length → f b (k + j, l.getD j d) = b) →
      (l.enumFrom k).foldl f b = b
  | [], _, _, _ => rfl
  | a :: tl, k, b, h => by
    have h0 : f b (k, a) = b := by simpa using h 0 (by simp)
    rw [List.enumFrom_cons, List.foldl_cons, h0]
    refine foldl_enumFrom_fixed f d tl (k + 1) b fun j hj => ?_
    have hkj : k + 1 + j = k + (j + 1) := by omega
    have := h (j + 1) (by simpa using Nat.succ_lt_succ hj)
    simpa [hkj] using this

/-- Flattening a list of singletons is a plain map. -/
theorem flatten_map_singleton {α β : Type*} (g : α → β) :
    ∀ l : List α, (l.map fun a => [g a]).flatten = l.map g
  | [] => rfl
  | a :: tl => by simp [flatten_map_singleton g tl]

/-- `enumFrom` distributes over append, shifting the start index. -/
theorem enumFrom_append {α : Type*} :
    ∀ (l₁ l₂ : List α) (k : Nat),
      (l₁ ++ l₂).enumFrom k = l₁.enumFrom k ++ l₂.enumFrom (k + l₁.length)
  | [], _, _ => by simp
  | a :: tl, l₂, k => by
    have hk : k + 1 + tl.length = k + (tl.length + 1) := by omega
    simp [List.enumFrom_cons, enumFrom_append tl l₂ (k + 1), hk]

/-! Helper lemmas about the engine. -/

/-- Re-writing a pixel with the value already stored there is a no-op. -/
theorem putPixel_getPixel_self (img : Image) (x y : Nat) :
    putPixel img x y (getPixel img x y) = img := by
  unfold putPixel getPixel
  rw [set_getD_self]

/-- With `interval = 1` the interval list is `[1]`, so the chosen step is
always `1`, whatever the random choice and the progressive amount are. -/
theorem stepFor_eq_one (opts : SortOptions) (choice : Nat → List Nat → Nat)
    (progAt : Nat → Nat) (outer : Nat) (hi : opts.interval = 1)
    (hc : ∀ o l, l ≠ [] → choice o l ∈ l) :
    stepFor opts choice progAt outer = 1 := by
  have hmem := hc outer (intervalList opts.interval)
    (by rw [hi]; simp [intervalList])
  rw [hi] at hmem
  have hch : choice outer (intervalList 1) = 1 := by
    simpa [intervalList] using hmem
  unfold stepFor
  rw [hi, hch]
  have hlast : (intervalList 1).getLastD 0 = 1 := rfl
  rw [hlast]
  omega

/-- Stepping by `1` visits every inner index. -/
theorem stepIndices_one (limit : Nat) : stepIndices limit 1 = List.range limit := by
  unfold stepIndices
  rw [List.range_eq_range']
  simp

/-- A window of width `1` at an in-range index is that single pixel. -/
theorem gatherBlock_one (dir : WalkPath) (img : Image) (innerL outer i : Nat)
    (h : i < innerL) :
    gatherBlock dir img innerL outer i 1 =
      [match dir with
       | WalkPath.Horizontal => getPixel img i outer
       | WalkPath.Vertical => getPixel img outer i] := by
  have hcl : clampIdx i innerL = i := by unfold clampIdx; omega
  cases dir <;> simp [gatherBlock, hcl]

/-- Sorting a singleton block is the identity. -/
theorem sortByKey_singleton (key : Pixel → Nat) (p : Pixel) :
    sortByKey key [p] = [p] := rfl

/-- Every branch of the block transformer fixes a singleton block, for any
shuffle outcome that is a permutation. -/
theorem transformBlock_singleton (opts : SortOptions) (sorter : Pixel → Nat)
    (shuffler : List Pixel → List Pixel) (p : Pixel)
    (hsh : ∀ l, (shuffler l).Perm l) :
    transformBlock opts sorter shuffler [p] = [p] := by
  have h1 : (if opts.shuffle then shuffler [p] else [p]) = [p] := by
    cases hb : opts.shuffle
    · simp
    · simpa using List.perm_singleton.mp (hsh [p])
  unfold transformBlock
  rw [h1]
  cases hr : opts.reverse <;> simp [sortByKey_singleton]

/-- With `interval = 1` and `discretize = 1` a line's concatenated blocks
are exactly the line's own pixels in order. -/
theorem lineConcat_default (opts : SortOptions) (sorter : Pixel → Nat)
    (choice : Nat → List Nat → Nat) (progAt : Nat → Nat)
    (shuffler : List Pixel → List Pixel) (img : Image) (innerL outer : Nat)
    (hi : opts.interval = 1) (hd : opts.discretize = 1)
    (hc : ∀ o l, l ≠ [] → choice o l ∈ l)
    (hsh : ∀ l, (shuffler l).Perm l) :
    lineConcat opts sorter choice progAt shuffler img innerL outer =
      (List.range innerL).map fun i =>
        match opts.direction with
        | WalkPath.Horizontal => getPixel img i outer
        | WalkPath.Vertical => getPixel img outer i := by
  unfold lineConcat
  rw [stepFor_eq_one opts choice progAt outer hi hc, stepIndices_one, hd]
  rw [List.map_congr_left fun i hi' =>
    by rw [gatherBlock_one opts.direction img innerL outer i (List.mem_range.mp hi'),
      transformBlock_singleton opts sorter shuffler _ hsh]]
  exact flatten_map_singleton _ _

/-- With `interval = 1` and `discretize = 1` (the CLI defaults) a full
sort pass is the identity on the image, for every key function, direction,
reverse/shuffle flag, progressive amount, and random outcome. -/
theorem sortPass_eq_self (opts : SortOptions) (sorter : Pixel → Nat)
    (choice : Nat → List Nat → Nat) (progAt : Nat → Nat)
    (shuffler : List Pixel → List Pixel) (img : Image)
    (hi : opts.interval = 1) (hd : opts.discretize = 1)
    (hc : ∀ o l, l ≠ [] → choice o l ∈ l)
    (hsh : ∀ l, (shuffler l).Perm l) :
    sortPass opts sorter choice progAt shuffler img = img := by
  unfold sortPass
  apply foldl_fixed
  intro pr hpr
  obtain ⟨o, _, rfl⟩ := List.mem_map.mp hpr
  rw [lineConcat_default opts sorter choice progAt shuffler img _ o hi hd hc hsh]
  show writeConcat opts.direction (innerLimit opts.direction img) o img _ = img
  unfold writeConcat writePairs
  show List.foldl _ img (List.enumFrom 0 _) = img
  apply foldl_enumFrom_fixed _ defaultPixel
  intro j hj
  have hjI : j < innerLimit opts.direction img := by simpa using hj
  have hcl : clampIdx (0 + j) (innerLimit opts.direction img) = j := by
    unfold clampIdx; omega
  have hget : ((List.range (innerLimit opts.direction img)).map fun i =>
      match opts.direction with
      | WalkPath.Horizontal => getPixel img i o
      | WalkPath.Vertical => getPixel img o i).getD j defaultPixel =
      match opts.direction with
      | WalkPath.Horizontal => getPixel img j o
      | WalkPath.Vertical => getPixel img o j := by
    simp [List.getD_eq_getElem?_getD, List.getElem?_range hjI]
  rw [hget]
  cases hdir : opts.direction
  · rw [hdir] at hjI
    have hclH : clampIdx j (innerLimit WalkPath.Horizontal img) = j := by
      unfold clampIdx; omega
    simpa [hclH] using putPixel_getPixel_self img j o
  · rw [hdir] at hjI
    have hclV : clampIdx j (innerLimit WalkPath.Vertical img) = j := by
      unfold clampIdx; omega
    simpa [hclV] using putPixel_getPixel_self img o j

/-- The key sort produces a permutation of its input block. -/
theorem sortByKey_perm (key : Pixel → Nat) (l : List Pixel) :
    (sortByKey key l).Perm l := List.perm_insertionSort _ _

/-- The key sort puts the block's keys into non-decreasing order. -/
theorem sortByKey_sorted (key : Pixel → Nat) (l : List Pixel) :
    List.Sorted (fun a b : Nat => a ≤ b) ((sortByKey key l).map key) := by
  haveI : IsTotal Pixel (fun a b => key a ≤ key b) := ⟨fun a b => Nat.le_total _ _⟩
  haveI : IsTrans Pixel (fun a b => key a ≤ key b) := ⟨fun _ _ _ => Nat.le_trans⟩
  exact List.pairwise_map.mpr (List.sorted_insertionSort _ l)

/-! Claims. -/

/-- Claim C3 (confirmed): with `interval = 1` and `discretize = 1` (the
CLI defaults) a sort pass leaves the image unchanged, for every score
function, traversal direction, and setting of the reverse and shuffle
flags — each block is a single pixel at consecutive inner indices written
back to its own position.  `choice` may pick any member of the interval
list and `shuffler` may be any permutation, so the statement covers every
random outcome. -/
theorem claim_C3_default_pass_identity (opts : SortOptions) (sorter : Pixel → Nat)
    (choice : Nat → List Nat → Nat) (progAt : Nat → Nat)
    (shuffler : List Pixel → List Pixel) (img : Image)
    (hi : opts.interval = 1) (hd : opts.discretize = 1)
    (hc : ∀ o l, l ≠ [] → choice o l ∈ l)
    (hsh : ∀ l, (shuffler l).Perm l) :
    sortPass opts sorter choice progAt shuffler img = img :=
  sortPass_eq_self opts sorter choice progAt shuffler img hi hd hc hsh

/-- Witness for C3: a 2 × 2 image, Vertical direction, reverse and shuffle
both set, a reversing shuffle outcome, progressive amount 5 — the pass is
still the identity. -/
theorem claim_C3_default_pass_identity_witness :
    sortPass ⟨1, true, 1, none, WalkPath.Vertical, true⟩ brightness
      (fun _ l => l.headD 1) (fun _ => 5) (fun l => l.reverse)
      ⟨2, 2, [⟨0, 0, 0⟩, ⟨1, 1, 1⟩, ⟨2, 2, 2⟩, ⟨3, 3, 3⟩]⟩ =
      ⟨2, 2, [⟨0, 0, 0⟩, ⟨1, 1, 1⟩, ⟨2, 2, 2⟩, ⟨3, 3, 3⟩]⟩ :=
  claim_C3_default_pass_identity _ _ _ _ _ _ rfl rfl
    (fun _ l hl => by
      cases l with
      | nil => exact absurd rfl hl
      | cons a t => simp)
    (fun l => List.reverse_perm l)

/-- Claim C1 counterexample: with `discretize = 1` but `interval = 2` the
pass is NOT a permutation of the pixels.  On a 4 × 1 image the chosen step
is `min(choice + prog, 2) = 2` for every possible random choice (the
progressive accumulator is at least 1 even when `--progressive-amount` is
absent), so pixel 1 is dropped and pixel 2 is duplicated. -/
theorem claim_C1_counterexample :
    ¬ (((sortPass ⟨2, false, 1, none, WalkPath.Horizontal, false⟩ (fun p => p.r)
        (fun _ l => l.headD 1) (fun _ => 1) id
        ⟨4, 1, [⟨0, 0, 0⟩, ⟨1, 1, 1⟩, ⟨2, 2, 2⟩, ⟨3, 3, 3⟩]⟩).data : Multiset Pixel) =
      (([⟨0, 0, 0⟩, ⟨1, 1, 1⟩, ⟨2, 2, 2⟩, ⟨3, 3, 3⟩] : List Pixel) : Multiset Pixel)) := by
  decide

/-- Claim C1 (amended): with `discretize = 1` AND `interval = 1` a sort
pass preserves the multiset of pixels — no pixel is created, duplicated,
or dropped (the pass is in fact the identity). -/
theorem claim_C1_amended_multiset (opts : SortOptions) (sorter : Pixel → Nat)
    (choice : Nat → List Nat → Nat) (progAt : Nat → Nat)
    (shuffler : List Pixel → List Pixel) (img : Image)
    (hi : opts.interval = 1) (hd : opts.discretize = 1)
    (hc : ∀ o l, l ≠ [] → choice o l ∈ l)
    (hsh : ∀ l, (shuffler l).Perm l) :
    (((sortPass opts sorter choice progAt shuffler img).data : Multiset Pixel)) =
      ((img.data : List Pixel) : Multiset Pixel) := by
  rw [sortPass_eq_self opts sorter choice progAt shuffler img hi hd hc hsh]

/-- Witness for the amended C1 on a 3 × 1 image, Horizontal, with the
shuffle flag set. -/
theorem claim_C1_amended_multiset_witness :
    (((sortPass ⟨1, false, 1, some 2, WalkPath.Horizontal, true⟩ (fun p => p.g)
        (fun _ l => l.headD 1) (fun o => o + 2) (fun l => l.reverse)
        ⟨3, 1, [⟨9, 0, 0⟩, ⟨8, 0, 0⟩, ⟨7, 0, 0⟩]⟩).data : Multiset Pixel)) =
      (([⟨9, 0, 0⟩, ⟨8, 0, 0⟩, ⟨7, 0, 0⟩] : List Pixel) : Multiset Pixel) :=
  claim_C1_amended_multiset _ _ _ _ _ _ rfl rfl
    (fun _ l hl => by
      cases l with
      | nil => exact absurd rfl hl
      | cons a t => simp)
    (fun l => List.reverse_perm l)

/-- Claim C2 counterexample: score ordering is NOT skipped for a shuffled
block.  With the shuffle flag set and the identity permutation as the
shuffle outcome, the claim says the block comes out exactly as shuffled;
the code still sorts it by key afterwards (the `if options.reverse`
statement always runs its `else` sort branch), so the output differs. -/
theorem claim_C2_counterexample :
    transformBlock ⟨1, false, 1, none, WalkPath.Horizontal, true⟩ (fun p => p.r) id
      [⟨5, 0, 0⟩, ⟨3, 0, 0⟩] ≠ id [⟨5, 0, 0⟩, ⟨3, 0, 0⟩] := by
  decide

/-- Claim C2 (amended): when the shuffle flag is set (and reverse is not),
the block is randomly permuted and score ordering is then still applied:
the result is a permutation of the block whose score keys are in
non-decreasing order — shuffle does not take precedence over the sort, it
only re-orders key ties. -/
theorem claim_C2_amended_shuffle_then_sort (opts : SortOptions)
    (sorter : Pixel → Nat) (shuffler : List Pixel → List Pixel)
    (block : List Pixel) (hs : opts.shuffle = true) (hr : opts.reverse = false)
    (hsh : ∀ l, (shuffler l).Perm l) :
    (transformBlock opts sorter shuffler block).Perm block ∧
      List.Sorted (fun a b : Nat => a ≤ b)
        ((transformBlock opts sorter shuffler block).map sorter) := by
  have ht : transformBlock opts sorter shuffler block =
      sortByKey sorter (shuffler block) := by
    unfold transformBlock
    rw [hs, hr]
    simp
  rw [ht]
  exact ⟨(sortByKey_perm sorter _).trans (hsh block), sortByKey_sorted sorter _⟩

/-- Witness for the amended C2: a two-pixel block with the identity as
shuffle outcome is re-sorted by key. -/
theorem claim_C2_amended_shuffle_then_sort_witness :
    (transformBlock ⟨1, false, 1, none, WalkPath.Horizontal, true⟩ (fun p => p.r) id
        [⟨5, 0, 0⟩, ⟨3, 0, 0⟩]).Perm [⟨5, 0, 0⟩, ⟨3, 0, 0⟩] ∧
      List.Sorted (fun a b : Nat => a ≤ b)
        ((transformBlock ⟨1, false, 1, none, WalkPath.Horizontal, true⟩ (fun p => p.r) id
          [⟨5, 0, 0⟩, ⟨3, 0, 0⟩]).map fun p => p.r) :=
  claim_C2_amended_shuffle_then_sort _ _ _ _ rfl rfl (fun l => List.Perm.refl l)

/-- Claim C6 (confirmed): when shuffle is not set and reverse is set, the
transformer reverses, sorts by key, and reverses again; the result is a
permutation of the input block whose score keys are in non-increasing
order. -/
theorem claim_C6_reverse_descending (opts : SortOptions) (sorter : Pixel → Nat)
    (shuffler : List Pixel → List Pixel) (block : List Pixel)
    (hs : opts.shuffle = false) (hr : opts.reverse = true) :
    (transformBlock opts sorter shuffler block).Perm block ∧
      List.Sorted (fun a b : Nat => a ≥ b)
        ((transformBlock opts sorter shuffler block).map sorter) := by
  have ht : transformBlock opts sorter shuffler block =
      (sortByKey sorter block.reverse).reverse := by
    unfold transformBlock
    rw [hs, hr]
    simp
  rw [ht]
  constructor
  · exact (List.reverse_perm _).trans
      ((sortByKey_perm sorter _).trans (List.reverse_perm block))
  · rw [List.map_reverse]
    exact List.pairwise_reverse.mpr (sortByKey_sorted sorter block.reverse)

/-- Witness for C6: a three-pixel block comes out as a permutation with
descending keys. -/
theorem claim_C6_reverse_descending_witness :
    (transformBlock ⟨1, true, 1, none, WalkPath.Horizontal, false⟩ (fun p => p.b) id
        [⟨0, 0, 4⟩, ⟨0, 0, 9⟩, ⟨0, 0, 1⟩]).Perm [⟨0, 0, 4⟩, ⟨0, 0, 9⟩, ⟨0, 0, 1⟩] ∧
      List.Sorted (fun a b : Nat => a ≥ b)
        ((transformBlock ⟨1, true, 1, none, WalkPath.Horizontal, false⟩ (fun p => p.b) id
          [⟨0, 0, 4⟩, ⟨0, 0, 9⟩, ⟨0, 0, 1⟩]).map fun p => p.b) :=
  claim_C6_reverse_descending _ _ _ _ rfl rfl

/-- Unfolding one write of the collector loop. -/
theorem writePairs_cons (dir : WalkPath) (innerL outer : Nat) (img : Image)
    (xp : Nat × Pixel) (tl : List (Nat × Pixel)) :
    writePairs dir innerL outer img (xp :: tl) =
      writePairs dir innerL outer
        (match dir with
         | WalkPath.Horizontal => putPixel img (clampIdx xp.1 innerL) outer xp.2
         | WalkPath.Vertical => putPixel img outer (clampIdx xp.1 innerL) xp.2) tl := rfl

/-- The collector's writes do not change the image width. -/
theorem writePairs_width : ∀ (pairs : List (Nat × Pixel)) (dir : WalkPath)
    (innerL outer : Nat) (img : Image),
    (writePairs dir innerL outer img pairs).width = img.width
  | [], _, _, _, _ => rfl
  | xp :: tl, dir, innerL, outer, img => by
    rw [writePairs_cons, writePairs_width tl dir innerL outer]
    cases dir <;> rfl

/-- The collector's writes do not change the pixel-buffer length. -/
theorem writePairs_data_length : ∀ (pairs : List (Nat × Pixel)) (dir : WalkPath)
    (innerL outer : Nat) (img : Image),
    (writePairs dir innerL outer img pairs).data.length = img.data.length
  | [], _, _, _, _ => rfl
  | xp :: tl, dir, innerL, outer, img => by
    rw [writePairs_cons, writePairs_data_length tl dir innerL outer]
    cases dir <;> simp [putPixel]

/-- Reading back a just-written in-range position returns the written
pixel. -/
theorem getPixel_putPixel_self (im : Image) (x y : Nat) (p : Pixel)
    (h : y * im.width + x < im.data.length) :
    getPixel (putPixel im x y p) x y = p := by
  unfold getPixel putPixel
  simp [List.getD_eq_getElem?_getD, List.getElem?_set_self h]

/-- Writing back a line whose last element is `p` ends with a single
clamped write of `p`. -/
theorem writeConcat_append_last (innerL outer : Nat) (img : Image)
    (ys : List Pixel) (p : Pixel) :
    writeConcat WalkPath.Horizontal innerL outer img (ys ++ [p]) =
      putPixel (writeConcat WalkPath.Horizontal innerL outer img ys)
        (clampIdx ys.length innerL) outer p := by
  unfold writeConcat writePairs
  have he : (ys ++ [p]).enum = ys.enum ++ [(ys.length, p)] := by
    show (ys ++ [p]).enumFrom 0 = ys.enumFrom 0 ++ [(ys.length, p)]
    rw [enumFrom_append]
    simp [List.enumFrom]
  rw [he, List.foldl_append]
  rfl

/-- When the concatenated line is at least as long as the line width, the
pixel finally stored at the last inner index is the line's last element:
every overflowing position is clamped there and the last write wins. -/
theorem getPixel_writeConcat_last (img : Image) (o : Nat) (sorted : List Pixel)
    (hwf : img.wf) (hw : 1 ≤ img.width) (ho : o < img.height)
    (hlen : img.width ≤ sorted.length) :
    getPixel (writeConcat WalkPath.Horizontal img.width o img sorted)
      (img.width - 1) o = sorted.getLastD defaultPixel := by
  obtain h | ⟨ys, p, hys⟩ := List.eq_nil_or_concat sorted
  · subst h
    simp at hlen
    omega
  · rw [List.concat_eq_append] at hys
    subst hys
    rw [writeConcat_append_last]
    have hyslen : img.width - 1 ≤ ys.length := by
      rw [List.length_append] at hlen
      simp at hlen
      omega
    have hcl : clampIdx ys.length img.width = img.width - 1 := by
      unfold clampIdx
      omega
    rw [hcl]
    have hwidth : (writeConcat WalkPath.Horizontal img.width o img ys).width =
        img.width := writePairs_width _ _ _ _ _
    have hdlen : (writeConcat WalkPath.Horizontal img.width o img ys).data.length =
        img.data.length := writePairs_data_length _ _ _ _ _
    have hidx : o * img.width + (img.width - 1) <
        (writeConcat WalkPath.Horizontal img.width o img ys).data.length := by
      rw [hdlen, hwf]
      have h1 : (o + 1) * img.width ≤ img.height * img.width :=
        Nat.mul_le_mul_right _ ho
      rw [Nat.succ_mul] at h1
      have h2 : img.width * img.height = img.height * img.width := Nat.mul_comm _ _
      omega
    have hidx' : o * (writeConcat WalkPath.Horizontal img.width o img ys).width +
        (img.width - 1) <
        (writeConcat WalkPath.Horizontal img.width o img ys).data.length := by
      rw [hwidth]
      exact hidx
    rw [getPixel_putPixel_self _ _ _ _ hidx']
    simp [List.getLastD_concat]

/-- Vertical analogue of `writeConcat_append_last`: the write-back of a
column ends with a single clamped write of the last element. -/
theorem writeConcat_append_last_vertical (innerL outer : Nat) (img : Image)
    (ys : List Pixel) (p : Pixel) :
    writeConcat WalkPath.Vertical innerL outer img (ys ++ [p]) =
      putPixel (writeConcat WalkPath.Vertical innerL outer img ys)
        outer (clampIdx ys.length innerL) p := by
  unfold writeConcat writePairs
  have he : (ys ++ [p]).enum = ys.enum ++ [(ys.length, p)] := by
    show (ys ++ [p]).enumFrom 0 = ys.enumFrom 0 ++ [(ys.length, p)]
    rw [enumFrom_append]
    simp [List.enumFrom]
  rw [he, List.foldl_append]
  rfl

/-- Vertical analogue of `getPixel_writeConcat_last`: when the
concatenated column is at least as long as the column height, the pixel
finally stored at the last inner index is the column's last element. -/
theorem getPixel_writeConcat_last_vertical (img : Image) (o : Nat)
    (sorted : List Pixel) (hwf : img.wf) (hh : 1 ≤ img.height)
    (ho : o < img.width) (hlen : img.height ≤ sorted.length) :
    getPixel (writeConcat WalkPath.Vertical img.height o img sorted)
      o (img.height - 1) = sorted.getLastD defaultPixel := by
  obtain h | ⟨ys, p, hys⟩ := List.eq_nil_or_concat sorted
  · subst h
    simp at hlen
    omega
  · rw [List.concat_eq_append] at hys
    subst hys
    rw [writeConcat_append_last_vertical]
    have hyslen : img.height - 1 ≤ ys.length := by
      rw [List.length_append] at hlen
      simp at hlen
      omega
    have hcl : clampIdx ys.length img.height = img.height - 1 := by
      unfold clampIdx
      omega
    rw [hcl]
    have hwidth : (writeConcat WalkPath.Vertical img.height o img ys).width =
        img.width := writePairs_width _ _ _ _ _
    have hdlen : (writeConcat WalkPath.Vertical img.height o img ys).data.length =
        img.data.length := writePairs_data_length _ _ _ _ _
    have hidx : (img.height - 1) * img.width + o <
        (writeConcat WalkPath.Vertical img.height o img ys).data.length := by
      rw [hdlen, hwf]
      have h1 : (img.height - 1 + 1) * img.width = img.height * img.width := by
        congr 1
        omega
      rw [Nat.succ_mul] at h1
      have h2 : img.width * img.height = img.height * img.width := Nat.mul_comm _ _
      omega
    have hidx' : (img.height - 1) *
        (writeConcat WalkPath.Vertical img.height o img ys).width + o <
        (writeConcat WalkPath.Vertical img.height o img ys).data.length := by
      rw [hwidth]
      exact hidx
    rw [getPixel_putPixel_self _ _ _ _ hidx']
    simp [List.getLastD_concat]

/-- Claim C7 (confirmed): every clamped index is in bounds (`clampIdx i
limit < limit` whenever the line is non-empty) — this covers both the
window gather and the write-back, which use `clampIdx` — and when the
concatenated line overflows the line length, the value finally stored at
the last inner index is the last element that maps there, for both the
Horizontal write-back `(min(i, inner_limit-1), outer)` and the Vertical
write-back `(outer, min(i, inner_limit-1))`. -/
theorem claim_C7_clamping :
    (∀ i limit, 1 ≤ limit → clampIdx i limit < limit) ∧
    (∀ (img : Image) (o : Nat) (sorted : List Pixel),
      img.wf → 1 ≤ img.width → o < img.height → img.width ≤ sorted.length →
      getPixel (writeConcat WalkPath.Horizontal img.width o img sorted)
        (img.width - 1) o = sorted.getLastD defaultPixel) ∧
    (∀ (img : Image) (o : Nat) (sorted : List Pixel),
      img.wf → 1 ≤ img.height → o < img.width → img.height ≤ sorted.length →
      getPixel (writeConcat WalkPath.Vertical img.height o img sorted)
        o (img.height - 1) = sorted.getLastD defaultPixel) :=
  ⟨fun _ limit h => by unfold clampIdx; omega,
   fun img o sorted h1 h2 h3 h4 => getPixel_writeConcat_last img o sorted h1 h2 h3 h4,
   fun img o sorted h1 h2 h3 h4 =>
     getPixel_writeConcat_last_vertical img o sorted h1 h2 h3 h4⟩

/-- Witness for C7: index 5 clamps into a line of length 4; writing a
6-element concatenated line into a 4 × 1 image (Horizontal) stores the
6th element at the last column, and writing it into a 1 × 4 image
(Vertical) stores the 6th element at the last row. -/
theorem claim_C7_clamping_witness :
    ((1 : Nat) ≤ 4 ∧ clampIdx 5 4 < 4) ∧
    getPixel (writeConcat WalkPath.Horizontal 4 0
        ⟨4, 1, [⟨0, 0, 0⟩, ⟨1, 1, 1⟩, ⟨2, 2, 2⟩, ⟨3, 3, 3⟩]⟩
        [⟨9, 0, 0⟩, ⟨8, 0, 0⟩, ⟨7, 0, 0⟩, ⟨6, 0, 0⟩, ⟨5, 0, 0⟩, ⟨4, 0, 0⟩]) 3 0 =
      ⟨4, 0, 0⟩ ∧
    getPixel (writeConcat WalkPath.Vertical 4 0
        ⟨1, 4, [⟨0, 0, 0⟩, ⟨1, 1, 1⟩, ⟨2, 2, 2⟩, ⟨3, 3, 3⟩]⟩
        [⟨9, 0, 0⟩, ⟨8, 0, 0⟩, ⟨7, 0, 0⟩, ⟨6, 0, 0⟩, ⟨5, 0, 0⟩, ⟨4, 0, 0⟩]) 0 3 =
      ⟨4, 0, 0⟩ :=
  ⟨⟨by decide, claim_C7_clamping.1 5 4 (by decide)⟩,
    (claim_C7_clamping.2.1 ⟨4, 1, [⟨0, 0, 0⟩, ⟨1, 1, 1⟩, ⟨2, 2, 2⟩, ⟨3, 3, 3⟩]⟩ 0
      [⟨9, 0, 0⟩, ⟨8, 0, 0⟩, ⟨7, 0, 0⟩, ⟨6, 0, 0⟩, ⟨5, 0, 0⟩, ⟨4, 0, 0⟩]
      rfl (by decide) (by decide) (by decide)).trans (by decide),
    (claim_C7_clamping.2.2 ⟨1, 4, [⟨0, 0, 0⟩, ⟨1, 1, 1⟩, ⟨2, 2, 2⟩, ⟨3, 3, 3⟩]⟩ 0
      [⟨9, 0, 0⟩, ⟨8, 0, 0⟩, ⟨7, 0, 0⟩, ⟨6, 0, 0⟩, ⟨5, 0, 0⟩, ⟨4, 0, 0⟩]
      rfl (by decide) (by decide) (by decide)).trans (by decide)⟩

/-- The last entry of `range' s (k+1) 1` is `s + k`. -/
theorem getLastD_range'_one :
    ∀ (k s d : Nat), (List.range' s (k + 1) 1).getLastD d = s + k
  | 0, _, _ => rfl
  | k + 1, s, _ => by
    rw [List.range'_succ, List.getLastD_cons, getLastD_range'_one k (s + 1) s]
    omega

/-- Members of the interval list `[1..=k]` lie in `[1, k]`. -/
theorem mem_intervalList {x k : Nat} (h : x ∈ intervalList k) : 1 ≤ x ∧ x ≤ k := by
  unfold intervalList at h
  obtain ⟨i, hik, rfl⟩ := List.mem_range'.mp h
  omega

/-- Claim C9 (confirmed): for every interval bound `k ≥ 1` and every outer
line, the chosen step lies in `[1, k]`: the random base is drawn from the
non-empty list `[1..=k]`, the progressive amount is added, and the sum is
clamped to the list's last element `k` — so the step is never 0 and the
stepped partition of the line is finite. -/
theorem claim_C9_step_in_range (opts : SortOptions)
    (choice : Nat → List Nat → Nat) (progAt : Nat → Nat) (outer : Nat)
    (hk : 1 ≤ opts.interval) (hc : ∀ o l, l ≠ [] → choice o l ∈ l) :
    1 ≤ stepFor opts choice progAt outer ∧
      stepFor opts choice progAt outer ≤ opts.interval := by
  obtain ⟨m, hm⟩ : ∃ m, opts.interval = m + 1 := ⟨opts.interval - 1, by omega⟩
  have hne : intervalList opts.interval ≠ [] := by
    unfold intervalList
    rw [hm]
    simp
  have hb := mem_intervalList (hc outer _ hne)
  have hlast : (intervalList opts.interval).getLastD 0 = opts.interval := by
    unfold intervalList
    rw [hm, getLastD_range'_one]
    omega
  unfold stepFor
  rw [hlast]
  omega

/-- Witness for C9: interval bound 3, base choice 1, progressive amount 7:
the step is clamped into `[1, 3]`. -/
theorem claim_C9_step_in_range_witness :
    1 ≤ stepFor ⟨3, false, 1, some 5, WalkPath.Horizontal, false⟩
        (fun _ l => l.headD 1) (fun _ => 7) 0 ∧
      stepFor ⟨3, false, 1, some 5, WalkPath.Horizontal, false⟩
        (fun _ l => l.headD 1) (fun _ => 7) 0 ≤ 3 :=
  claim_C9_step_in_range _ _ _ 0 (by decide)
    (fun _ l hl => by
      cases l with
      | nil => exact absurd rfl hl
      | cons a t => simp)

/-- Claim C8 (confirmed): on the coefficient-adjusted pixel, brightness is
the midpoint of the minimum and maximum channels under wrapping (modular)
8-bit arithmetic, `((max + min) mod 256) / 2`; when `max + min ≥ 256` the
sum wraps around instead of saturating at 255. -/
theorem claim_C8_brightness_wraps (p : Pixel)
    (hr : p.r ≤ 255) (hg : p.g ≤ 255) (hb : p.b ≤ 255) :
    brightness p = (maxC p + minC p) % 256 / 2 ∧
      (256 ≤ maxC p + minC p → brightness p = (maxC p + minC p - 256) / 2) := by
  refine ⟨rfl, fun h => ?_⟩
  have h1 : maxC p ≤ 255 := by unfold maxC; omega
  have h2 : minC p ≤ 255 := by unfold minC; omega
  unfold brightness wrappingAdd
  omega

/-- Witness for C8 at the pixel (200, 100, 150): `max + min = 300 ≥ 256`,
and the wrapped midpoint is `(300 - 256) / 2 = 22`, not the saturating
`255 / 2`. -/
theorem claim_C8_brightness_wraps_witness :
    (256 ≤ maxC ⟨200, 100, 150⟩ + minC ⟨200, 100, 150⟩ ∧
      brightness ⟨200, 100, 150⟩ =
        (maxC ⟨200, 100, 150⟩ + minC ⟨200, 100, 150⟩ - 256) / 2) ∧
      brightness ⟨200, 100, 150⟩ = 22 :=
  ⟨⟨by decide,
    (claim_C8_brightness_wraps ⟨200, 100, 150⟩ (by decide) (by decide) (by decide)).2
      (by decide)⟩,
   by decide⟩

/-- Claim C10 (confirmed): on the coefficient-adjusted pixel, saturation
`(max - min) / max` (truncating division, 0 when `max = 0`) can only be 0
or 1, and it is 1 exactly when the adjusted minimum channel is 0 and the
adjusted maximum channel is nonzero. -/
theorem claim_C10_saturation_binary (p : Pixel)
    (hr : p.r ≤ 255) (hg : p.g ≤ 255) (hb : p.b ≤ 255) :
    (saturation p = 0 ∨ saturation p = 1) ∧
      (saturation p = 1 ↔ minC p = 0 ∧ maxC p ≠ 0) := by
  have hmm : minC p ≤ maxC p := by unfold minC maxC; omega
  have hM : maxC p ≤ 255 := by unfold maxC; omega
  have hsub : wrappingSub (maxC p) (minC p) = maxC p - minC p := by
    unfold wrappingSub; omega
  by_cases hz : maxC p = 0
  · have h0 : saturation p = 0 := by unfold saturation; simp [hz]
    exact ⟨Or.inl h0, by rw [h0]; simp [hz]⟩
  · have hsat : saturation p = (maxC p - minC p) / maxC p := by
      unfold saturation
      rw [hsub]
      simp [hz]
    by_cases hm : minC p = 0
    · have h1 : saturation p = 1 := by
        rw [hsat, hm]
        simp [Nat.div_self (Nat.pos_of_ne_zero hz)]
      exact ⟨Or.inr h1, by rw [h1]; simp [hm, hz]⟩
    · have hlt : maxC p - minC p < maxC p := by omega
      have h0 : saturation p = 0 := by
        rw [hsat]
        exact Nat.div_eq_of_lt hlt
      exact ⟨Or.inl h0, by rw [h0]; simp [hm]⟩

/-- Witness for C10 at the pixel (0, 10, 5): the minimum channel is 0 and
the maximum is nonzero, so saturation evaluates to 1. -/
theorem claim_C10_saturation_binary_witness :
    ((saturation ⟨0, 10, 5⟩ = 0 ∨ saturation ⟨0, 10, 5⟩ = 1) ∧
      (saturation ⟨0, 10, 5⟩ = 1 ↔ minC ⟨0, 10, 5⟩ = 0 ∧ maxC ⟨0, 10, 5⟩ ≠ 0)) ∧
      saturation ⟨0, 10, 5⟩ = 1 :=
  ⟨claim_C10_saturation_binary ⟨0, 10, 5⟩ (by decide) (by decide) (by decide),
   by decide⟩

/-- Claim C5 (code bug): the spec's standard HSV hue (`hueSpec`, written
from the spec's words) gives 120° for pure green, but the code's `hue`
returns 0 for the same pixel under the default hue coefficients (0, 2, 4):
the `match max { r if r == max => … }` guard binds `max` itself, so the
red arm is always taken, and `diff` is the unnormalised integer channel
difference while the channels were divided by 255.  The grayscale
convention (min = max ↦ 0) does hold in the code. -/
theorem claim_C5_hue_bug :
    hue ⟨0, 255, 0⟩ 0 2 4 = 0 ∧ hueSpec ⟨0, 255, 0⟩ = 120 ∧
      hue ⟨0, 255, 0⟩ 0 2 4 ≠ hueSpec ⟨0, 255, 0⟩ ∧ hue ⟨7, 7, 7⟩ 0 2 4 = 0 := by
  have h1 : hue ⟨0, 255, 0⟩ 0 2 4 = 0 := by
    norm_num [hue, f32toU8, maxC, minC]
  have h2 : hueSpec ⟨0, 255, 0⟩ = 120 := by
    norm_num [hueSpec, maxC, minC]
    decide
  have h3 : hue ⟨7, 7, 7⟩ 0 2 4 = 0 := by
    norm_num [hue, maxC, minC]
  refine ⟨h1, h2, ?_, h3⟩
  rw [h1, h2]
  decide

/-- Claim C4 counterexample: Concentric and Diagonal are NOT "accepted by
configuration": parsing the direction value fails for both, so no sort
pass — and a fortiori no `UnsupportedTraversal` signal from the engine —
is ever reached; the engine's direction match is total on the two
existing `WalkPath` variants and signals nothing. -/
theorem claim_C4_counterexample :
    parseWalkPath "concentric" = none ∧ parseWalkPath "diagonal" = none := by
  decide

/-- Claim C4 (amended): a request for any direction other than horizontal
or vertical is rejected at configuration parsing, before a sort pass can
begin, so the image is never mutated by such a request; `WalkPath` has no
Concentric or Diagonal value and no `UnsupportedTraversal` error exists in
the code. -/
theorem claim_C4_amended_reject (s : String) (d : WalkPath)
    (h : parseWalkPath s = some d) :
    (s = "horizontal" ∧ d = WalkPath.Horizontal) ∨
      (s = "vertical" ∧ d = WalkPath.Vertical) := by
  unfold parseWalkPath at h
  by_cases h1 : s = "horizontal"
  · rw [if_pos h1] at h
    exact Or.inl ⟨h1, (Option.some_inj.mp h).symm⟩
  · rw [if_neg h1] at h
    by_cases h2 : s = "vertical"
    · rw [if_pos h2] at h
      exact Or.inr ⟨h2, (Option.some_inj.mp h).symm⟩
    · rw [if_neg h2] at h
      exact absurd h (by simp)

/-- Witness for the amended C4: "horizontal" parses to `Horizontal`. -/
theorem claim_C4_amended_reject_witness :
    ("horizontal" = "horizontal" ∧ WalkPath.Horizontal = WalkPath.Horizontal) ∨
      ("horizontal" = "vertical" ∧ WalkPath.Horizontal = WalkPath.Vertical) :=
  claim_C4_amended_reject "horizontal" WalkPath.Horizontal rfl

end PxSort
